import Mathlib

/-
Verification of the token-stream decoder `rangesByName` from
`src/rangesByName.ts`. The function consumes a flat, delta-encoded
semantic-token array together with a legend (kind names, modifier names)
and a source-text accessor, and returns a mapping from identifier names to
the ranges at which they should be highlighted.

The embedding below follows the source line by line:
* JavaScript `Map` objects (insertion-ordered, unique keys) are modelled as
  association lists with `assocGet` / `assocSet` / `assocDelete`, where
  `assocSet` keeps the position of an existing key and appends a new key at
  the end, exactly like `Map.prototype.set`.
* The per-token position accumulation and field decoding (source lines
  72-81) is `decodeTokens`; the text accessor may fail (the document can be
  closed mid-decode), which is modelled by `Option` and aborts the decode.
* The per-token classification (source lines 82-116) is `classifyTok`,
  folded over the decoded tokens by `classify`.
* The cpp override (source lines 120-124) is `forceDeclared` and the final
  reconciliation loop (source lines 125-137) is `reconcile`.
-/

namespace SemanticHighlighting

/-- Absolute single-line source range, as `new vscode.Range(line, column, line, column + length)`. -/
structure Range where
  startLine : Nat
  startCol : Nat
  endLine : Nat
  endCol : Nat
deriving DecidableEq

/-- One decoded token: its absolute range, the source text under the range,
the kind name looked up in the legend, and the decoded modifier set. -/
structure Tok where
  range : Range
  name : String
  kind : String
  modifiers : List String
deriving DecidableEq

/-- Lookup in an insertion-ordered association map (JS `Map.prototype.get`). -/
def assocGet {α : Type} : List (String × α) → String → Option α
  | [], _ => none
  | (k', v) :: rest, k => if k' = k then some v else assocGet rest k

/-- Update or insert (JS `Map.prototype.set`): an existing key keeps its
position, a new key is appended at the end. -/
def assocSet {α : Type} : List (String × α) → String → α → List (String × α)
  | [], k, v => [(k, v)]
  | (k', v') :: rest, k, v =>
      if k' = k then (k, v) :: rest else (k', v') :: assocSet rest k v

/-- Remove a key (JS `Map.prototype.delete`). -/
def assocDelete {α : Type} : List (String × α) → String → List (String × α)
  | [], _ => []
  | (k', v') :: rest, k => if k' = k then rest else (k', v') :: assocDelete rest k

/-- The keys of an association map, in order. -/
def keys {α : Type} (m : List (String × α)) : List String :=
  m.map Prod.fst

abbrev RangeMap := List (String × List Range)

/-- Append a range to a name's list, creating the entry when absent: the
`if (acc.has(name)) acc.get(name)!.push(range) else acc.set(name, [range])`
idiom of the source. -/
def pushRange (m : RangeMap) (name : String) (r : Range) : RangeMap :=
  match assocGet m name with
  | some rs => assocSet m name (rs ++ [r])
  | none => assocSet m name [r]

/-- Decode the modifier bit set against the legend:
`legend.tokenModifiers.filter((_, index) => (modifierIndex & (1 << index)) !== 0)`. -/
def decodeModifiers (modifierNames : List String) (modifierIndex : Nat) : List String :=
  (modifierNames.enum.filter (fun p => modifierIndex &&& (1 <<< p.1) != 0)).map Prod.snd

/-- Sequential decode of the flat integer stream (source lines 72-81).
Running `line`/`column` accumulate: the column is kept when `deltaLine = 0`
and reset to 0 otherwise, then `deltaColumn` is added. The text accessor
may fail (`SourceUnavailable`); any failure aborts the whole decode with
`none`. A trailing fragment shorter than one 5-integer record is a
caller-contract violation and is treated as end of stream. -/
def decodeTokens (kindNames modifierNames : List String)
    (getText : Range → Option String) :
    Nat → Nat → List Nat → Option (List Tok)
  | line, column, deltaLine :: deltaColumn :: len :: kindIndex :: modifierIndex :: rest =>
      let column1 := if deltaLine = 0 then column else 0
      let line1 := line + deltaLine
      let column2 := column1 + deltaColumn
      let range : Range := ⟨line1, column2, line1, column2 + len⟩
      match getText range with
      | none => none
      | some name =>
          match decodeTokens kindNames modifierNames getText line1 column2 rest with
          | none => none
          | some toks =>
              some (⟨range, name, kindNames.getD kindIndex "", decodeModifiers modifierNames modifierIndex⟩ :: toks)
  | _, _, _ => some []

/-- The inclusion predicate of source line 82:
`highlightGlobals || !modifiers.includes('global') && name.length > 2`
(`&&` binds tighter than `||` in JavaScript). -/
def inclPred (highlightGlobals : Bool) (t : Tok) : Bool :=
  highlightGlobals || (!(t.modifiers.contains "global") && decide (2 < t.name.length))

/-- Accumulator state of the classification loop: the three maps
`accumulatorParam`, `accumulatorVar`, `accumulatorWithDec` of the source. -/
structure ClassifyState where
  accParam : RangeMap
  accVar : RangeMap
  accWithDec : List (String × Bool)
deriving DecidableEq

/-- All three accumulators start empty. -/
def initialState : ClassifyState := ⟨[], [], []⟩

/-- Update of `accumulatorWithDec` for a parameter-classified token: the
name is inserted with `false` at first sight, then set to `true` when the
"declaration" modifier is present (source lines 94-101). -/
def decUpdate (dec : List (String × Bool)) (t : Tok) : List (String × Bool) :=
  let dec1 :=
    if (assocGet dec t.name).isSome then dec
    else assocSet dec t.name false
  if t.modifiers.contains "declaration" then assocSet dec1 t.name true
  else dec1

/-- Classification of one decoded token (source lines 82-116): under the
inclusion predicate, variable-kind tokens go to `accVar` and
parameter-kind tokens without the "label" modifier go to `accParam`
(recording in `accWithDec` whether a "declaration" modifier was seen);
independently, class-kind tokens are folded into `accVar` whenever
`highlightClasses` is set. -/
def classifyTok (highlightGlobals highlightClasses : Bool)
    (st : ClassifyState) (t : Tok) : ClassifyState :=
  let st1 :=
    if inclPred highlightGlobals t then
      if t.kind == "variable" then
        { st with accVar := pushRange st.accVar t.name t.range }
      else if t.kind == "parameter" && !(t.modifiers.contains "label") then
        { st with accWithDec := decUpdate st.accWithDec t,
                  accParam := pushRange st.accParam t.name t.range }
      else st
    else st
  if highlightClasses && t.kind == "class" then
    { st1 with accVar := pushRange st1.accVar t.name t.range }
  else st1

/-- The classification loop over the whole decoded stream. -/
def classify (highlightGlobals highlightClasses : Bool)
    (st : ClassifyState) (toks : List Tok) : ClassifyState :=
  toks.foldl (classifyTok highlightGlobals highlightClasses) st

/-- The cpp override (source lines 120-124): when the document language is
"cpp", every entry of `accumulatorWithDec` is forced to `true`. -/
def forceDeclared (languageId : String) (dec : List (String × Bool)) :
    List (String × Bool) :=
  if languageId = "cpp" then dec.map (fun p => (p.1, true)) else dec

/-- The reconciliation loop (source lines 125-137): an undeclared name's
provisional parameter ranges are discarded; a declared name's parameter
ranges are merged into `accVar`, appended after any existing entry. -/
def reconcile : List (String × Bool) → RangeMap → RangeMap → RangeMap
  | [], accVar, _ => accVar
  | (name, isDeclared) :: rest, accVar, accParam =>
      if !isDeclared then
        reconcile rest accVar (assocDelete accParam name)
      else
        match assocGet accVar name with
        | some vs =>
            reconcile rest (assocSet accVar name (vs ++ (assocGet accParam name).getD [])) accParam
        | none =>
            reconcile rest (assocSet accVar name ((assocGet accParam name).getD [])) accParam

/-- Classification and reconciliation of an already-decoded token list:
everything `rangesByName` does after the positional decode. -/
def processToks (highlightGlobals highlightClasses : Bool)
    (languageId : String) (toks : List Tok) : RangeMap :=
  let st := classify highlightGlobals highlightClasses initialState toks
  reconcile (forceDeclared languageId st.accWithDec) st.accVar st.accParam

/-- The whole decoder `rangesByName`: sequential decode of the flat stream,
then classification and reconciliation. A text-accessor failure anywhere
aborts with `none`; otherwise the complete final map is returned. -/
def rangesByName (data : List Nat) (kindNames modifierNames : List String)
    (getText : Range → Option String)
    (highlightGlobals highlightClasses : Bool) (languageId : String) :
    Option RangeMap :=
  (decodeTokens kindNames modifierNames getText 0 0 data).map
    (processToks highlightGlobals highlightClasses languageId)

/-- A token contributes to `accVar` if it is a variable-kind token passing
the inclusion predicate, or a class-kind token under `highlightClasses`. -/
def varClassifies (highlightGlobals highlightClasses : Bool) (t : Tok) : Bool :=
  (inclPred highlightGlobals t && t.kind == "variable")
    || (highlightClasses && t.kind == "class")

/-- A token contributes to `accParam` if it is a parameter-kind token
without the "label" modifier, passing the inclusion predicate. -/
def paramClassifies (highlightGlobals : Bool) (t : Tok) : Bool :=
  inclPred highlightGlobals t && t.kind == "parameter"
    && !(t.modifiers.contains "label")

/-- The ranges classified into `accVar` under a given name, in stream order. -/
def varSeq (highlightGlobals highlightClasses : Bool)
    (toks : List Tok) (name : String) : List Range :=
  (toks.filter (fun t => t.name == name && varClassifies highlightGlobals highlightClasses t)).map Tok.range

/-- The ranges classified into `accParam` under a given name, in stream order. -/
def paramSeq (highlightGlobals : Bool) (toks : List Tok) (name : String) : List Range :=
  (toks.filter (fun t => t.name == name && paramClassifies highlightGlobals t)).map Tok.range

/-- Whether some parameter-classified occurrence of the name carries the
"declaration" modifier. -/
def declaredOf (highlightGlobals : Bool) (toks : List Tok) (name : String) : Bool :=
  toks.any (fun t => t.name == name && paramClassifies highlightGlobals t
    && t.modifiers.contains "declaration")

/-- Combining an accumulator entry with the ranges a token-list suffix
appends to it: no change when nothing is appended, otherwise the appended
ranges extend the existing entry (created if absent). -/
def combineOpt (o : Option (List Range)) (l : List Range) : Option (List Range) :=
  if l.isEmpty then o else some (o.getD [] ++ l)

theorem assocGet_set_self {α : Type} (m : List (String × α)) (k : String) (v : α) :
    assocGet (assocSet m k v) k = some v := by
  induction m with
  | nil => simp [assocSet, assocGet]
  | cons p rest ih =>
      obtain ⟨k', v'⟩ := p
      by_cases h : k' = k <;> simp [assocSet, assocGet, h, ih]

theorem assocGet_set_ne {α : Type} (m : List (String × α)) (k n : String) (v : α)
    (h : n ≠ k) : assocGet (assocSet m k v) n = assocGet m n := by
  induction m with
  | nil => simp [assocSet, assocGet, Ne.symm h]
  | cons p rest ih =>
      obtain ⟨k', v'⟩ := p
      simp only [assocSet]
      by_cases h' : k' = k
      · simp [h', assocGet, Ne.symm h]
      · simp [h', assocGet, ih]

theorem assocGet_delete_ne {α : Type} (m : List (String × α)) (k n : String)
    (h : n ≠ k) : assocGet (assocDelete m k) n = assocGet m n := by
  induction m with
  | nil => simp [assocDelete]
  | cons p rest ih =>
      obtain ⟨k', v'⟩ := p
      simp only [assocDelete]
      by_cases h' : k' = k
      · simp [h', assocGet, Ne.symm h]
      · simp [h', assocGet, ih]

theorem assocGet_mem {α : Type} (m : List (String × α)) (k : String) (v : α)
    (h : assocGet m k = some v) : (k, v) ∈ m := by
  induction m with
  | nil => simp [assocGet] at h
  | cons p rest ih =>
      obtain ⟨k', v'⟩ := p
      by_cases h' : k' = k
      · subst h'
        simp [assocGet] at h
        simp [h]
      · simp [assocGet, h'] at h
        exact List.mem_cons_of_mem _ (ih h)

theorem mem_keys_assocSet {α : Type} (m : List (String × α)) (k : String) (v : α)
    (n : String) : n ∈ keys (assocSet m k v) ↔ n ∈ keys m ∨ n = k := by
  induction m with
  | nil => simp [assocSet, keys]
  | cons p rest ih =>
      obtain ⟨k', v'⟩ := p
      simp only [assocSet]
      by_cases h : k' = k
      · subst h
        simp [keys]
        tauto
      · simp only [keys, List.map_cons, List.mem_cons] at ih ⊢
        simp only [if_neg h, List.map_cons, List.mem_cons, ih]
        tauto

theorem assocSet_keys_nodup {α : Type} (m : List (String × α)) (k : String) (v : α)
    (h : (keys m).Nodup) : (keys (assocSet m k v)).Nodup := by
  induction m with
  | nil => simp [assocSet, keys]
  | cons p rest ih =>
      obtain ⟨k', v'⟩ := p
      simp only [keys, List.map_cons, List.nodup_cons] at h
      obtain ⟨hk', hrest⟩ := h
      simp only [assocSet]
      by_cases h : k' = k
      · rw [if_pos h]
        subst h
        simp only [keys, List.map_cons, List.nodup_cons]
        exact ⟨hk', hrest⟩
      · rw [if_neg h]
        simp only [keys, List.map_cons, List.nodup_cons]
        refine ⟨?_, ih hrest⟩
        intro hmem
        rcases (mem_keys_assocSet rest k v k').mp hmem with h' | h'
        · exact hk' h'
        · exact h h'

theorem assocGet_pushRange_self (m : RangeMap) (name : String) (r : Range) :
    assocGet (pushRange m name r) name = some ((assocGet m name).getD [] ++ [r]) := by
  unfold pushRange
  cases h : assocGet m name <;> simp [h, assocGet_set_self]

theorem assocGet_pushRange_ne (m : RangeMap) (name n : String) (r : Range)
    (h : n ≠ name) : assocGet (pushRange m name r) n = assocGet m n := by
  unfold pushRange
  cases assocGet m name <;> simp [assocGet_set_ne _ _ _ _ h]

theorem combineOpt_nil (o : Option (List Range)) : combineOpt o [] = o := by
  simp [combineOpt]

theorem combineOpt_cons (o : Option (List Range)) (r : Range) (l : List Range) :
    combineOpt (some (o.getD [] ++ [r])) l = combineOpt o (r :: l) := by
  cases l <;> simp [combineOpt]

theorem decUpdate_get_self (dec : List (String × Bool)) (t : Tok) :
    assocGet (decUpdate dec t) t.name =
      some ((assocGet dec t.name).getD false || t.modifiers.contains "declaration") := by
  unfold decUpdate
  cases h : assocGet dec t.name with
  | none =>
      cases hd : t.modifiers.contains "declaration" <;>
        simp [h, hd, assocGet_set_self, assocGet_set_ne]
  | some w =>
      cases hd : t.modifiers.contains "declaration" <;>
        simp [h, hd, assocGet_set_self]

theorem decUpdate_get_ne (dec : List (String × Bool)) (t : Tok) (n : String)
    (h : n ≠ t.name) : assocGet (decUpdate dec t) n = assocGet dec n := by
  unfold decUpdate
  cases assocGet dec t.name |>.isSome <;>
    cases t.modifiers.contains "declaration" <;>
      simp [assocGet_set_ne _ _ _ _ h]

theorem decUpdate_keys_nodup (dec : List (String × Bool)) (t : Tok)
    (h : (keys dec).Nodup) : (keys (decUpdate dec t)).Nodup := by
  unfold decUpdate
  cases assocGet dec t.name |>.isSome <;>
    cases t.modifiers.contains "declaration" <;>
      simp <;> first
        | exact h
        | exact assocSet_keys_nodup _ _ _ h
        | exact assocSet_keys_nodup _ _ _ (assocSet_keys_nodup _ _ _ h)

theorem classifyTok_accVar (hg hc : Bool) (st : ClassifyState) (t : Tok) :
    (classifyTok hg hc st t).accVar =
      if varClassifies hg hc t then pushRange st.accVar t.name t.range
      else st.accVar := by
  unfold classifyTok varClassifies
  split_ifs <;> simp_all

theorem classifyTok_accParam (hg hc : Bool) (st : ClassifyState) (t : Tok) :
    (classifyTok hg hc st t).accParam =
      if paramClassifies hg t then pushRange st.accParam t.name t.range
      else st.accParam := by
  unfold classifyTok paramClassifies
  split_ifs <;> simp_all

theorem classifyTok_accWithDec (hg hc : Bool) (st : ClassifyState) (t : Tok) :
    (classifyTok hg hc st t).accWithDec =
      if paramClassifies hg t then decUpdate st.accWithDec t
      else st.accWithDec := by
  unfold classifyTok paramClassifies
  split_ifs <;> simp_all

theorem not_mem_keys_of_assocGet_none {α : Type} (m : List (String × α))
    (k : String) (h : assocGet m k = none) : k ∉ keys m := by
  induction m with
  | nil => simp [keys]
  | cons p rest ih =>
      obtain ⟨k', v'⟩ := p
      by_cases h' : k' = k
      · simp [assocGet, h'] at h
      · simp only [assocGet, if_neg h'] at h
        simp only [keys, List.map_cons, List.mem_cons]
        rintro (rfl | hmem)
        · exact h' rfl
        · exact ih h hmem

theorem declaredOf_eq_false_of_paramSeq_nil (hg : Bool) (toks : List Tok)
    (name : String) (h : paramSeq hg toks name = []) :
    declaredOf hg toks name = false := by
  induction toks with
  | nil => simp [declaredOf]
  | cons t rest ih =>
      cases hcnd : (t.name == name && paramClassifies hg t) with
      | true => simp [paramSeq, List.filter_cons, hcnd] at h
      | false =>
          simp only [paramSeq, List.filter_cons, hcnd, if_neg] at h
          simp only [declaredOf, List.any_cons, hcnd, Bool.false_and,
            Bool.false_or]
          exact ih h

theorem classify_accVar (hg hc : Bool) (toks : List Tok) :
    ∀ (st : ClassifyState) (name : String),
      assocGet (classify hg hc st toks).accVar name =
        combineOpt (assocGet st.accVar name) (varSeq hg hc toks name) := by
  induction toks with
  | nil => intro st name; simp [classify, varSeq, combineOpt]
  | cons t rest ih =>
      intro st name
      have hstep : classify hg hc st (t :: rest)
          = classify hg hc (classifyTok hg hc st t) rest := rfl
      rw [hstep, ih]
      by_cases hn : t.name = name
      · by_cases hv : varClassifies hg hc t = true
        · rw [classifyTok_accVar, if_pos hv, hn, assocGet_pushRange_self,
            combineOpt_cons]
          congr 1
          simp [varSeq, List.filter_cons, hn, hv]
        · rw [classifyTok_accVar, if_neg hv]
          congr 1
          simp [varSeq, List.filter_cons, hv]
      · have hun : assocGet (classifyTok hg hc st t).accVar name
            = assocGet st.accVar name := by
          rw [classifyTok_accVar]
          split
          · exact assocGet_pushRange_ne _ _ _ _ (fun e => hn e.symm)
          · rfl
        rw [hun]
        congr 1
        simp [varSeq, List.filter_cons, hn]

theorem classify_accParam (hg hc : Bool) (toks : List Tok) :
    ∀ (st : ClassifyState) (name : String),
      assocGet (classify hg hc st toks).accParam name =
        combineOpt (assocGet st.accParam name) (paramSeq hg toks name) := by
  induction toks with
  | nil => intro st name; simp [classify, paramSeq, combineOpt]
  | cons t rest ih =>
      intro st name
      have hstep : classify hg hc st (t :: rest)
          = classify hg hc (classifyTok hg hc st t) rest := rfl
      rw [hstep, ih]
      by_cases hn : t.name = name
      · by_cases hp : paramClassifies hg t = true
        · rw [classifyTok_accParam, if_pos hp, hn, assocGet_pushRange_self,
            combineOpt_cons]
          congr 1
          simp [paramSeq, List.filter_cons, hn, hp]
        · rw [classifyTok_accParam, if_neg hp]
          congr 1
          simp [paramSeq, List.filter_cons, hp]
      · have hun : assocGet (classifyTok hg hc st t).accParam name
            = assocGet st.accParam name := by
          rw [classifyTok_accParam]
          split
          · exact assocGet_pushRange_ne _ _ _ _ (fun e => hn e.symm)
          · rfl
        rw [hun]
        congr 1
        simp [paramSeq, List.filter_cons, hn]

theorem classify_accWithDec (hg hc : Bool) (toks : List Tok) :
    ∀ (st : ClassifyState) (n : String),
      assocGet (classify hg hc st toks).accWithDec n =
        if (paramSeq hg toks n).isEmpty then assocGet st.accWithDec n
        else some ((assocGet st.accWithDec n).getD false || declaredOf hg toks n) := by
  induction toks with
  | nil => intro st n; simp [classify, paramSeq]
  | cons t rest ih =>
      intro st n
      have hstep : classify hg hc st (t :: rest)
          = classify hg hc (classifyTok hg hc st t) rest := rfl
      rw [hstep, ih]
      by_cases hn : t.name = n
      · subst hn
        by_cases hp : paramClassifies hg t = true
        · have hdec : assocGet (classifyTok hg hc st t).accWithDec t.name
              = some ((assocGet st.accWithDec t.name).getD false
                  || t.modifiers.contains "declaration") := by
            rw [classifyTok_accWithDec, if_pos hp, decUpdate_get_self]
          rw [hdec]
          have hseq : paramSeq hg (t :: rest) t.name
              = t.range :: paramSeq hg rest t.name := by
            simp [paramSeq, List.filter_cons, hp]
          have hdo : declaredOf hg (t :: rest) t.name
              = (t.modifiers.contains "declaration" || declaredOf hg rest t.name) := by
            simp [declaredOf, List.any_cons, hp, Bool.and_comm]
          rw [hseq, hdo]
          cases he : (paramSeq hg rest t.name).isEmpty with
          | true =>
              have : declaredOf hg rest t.name = false :=
                declaredOf_eq_false_of_paramSeq_nil hg rest t.name
                  (List.isEmpty_iff.mp he)
              simp [he, this]
          | false =>
              simp [he, Bool.or_assoc]
        · have hdec : assocGet (classifyTok hg hc st t).accWithDec t.name
              = assocGet st.accWithDec t.name := by
            rw [classifyTok_accWithDec, if_neg hp]
          rw [hdec]
          have hseq : paramSeq hg (t :: rest) t.name = paramSeq hg rest t.name := by
            simp [paramSeq, List.filter_cons, hp]
          have hdo : declaredOf hg (t :: rest) t.name = declaredOf hg rest t.name := by
            simp [declaredOf, List.any_cons, hp]
          rw [hseq, hdo]
      · have hdec : assocGet (classifyTok hg hc st t).accWithDec n
            = assocGet st.accWithDec n := by
          rw [classifyTok_accWithDec]
          split
          · exact decUpdate_get_ne _ _ _ (fun e => hn e.symm)
          · rfl
        rw [hdec]
        have hseq : paramSeq hg (t :: rest) n = paramSeq hg rest n := by
          simp [paramSeq, List.filter_cons, hn]
        have hdo : declaredOf hg (t :: rest) n = declaredOf hg rest n := by
          simp [declaredOf, List.any_cons, hn]
        rw [hseq, hdo]

theorem classify_dec_keys_nodup (hg hc : Bool) (toks : List Tok) :
    ∀ (st : ClassifyState), (keys st.accWithDec).Nodup →
      (keys (classify hg hc st toks).accWithDec).Nodup := by
  induction toks with
  | nil => intro st h; exact h
  | cons t rest ih =>
      intro st h
      have hstep : classify hg hc st (t :: rest)
          = classify hg hc (classifyTok hg hc st t) rest := rfl
      rw [hstep]
      apply ih
      rw [classifyTok_accWithDec]
      split
      · exact decUpdate_keys_nodup _ _ h
      · exact h

theorem reconcile_get_notmem (dec : List (String × Bool)) :
    ∀ (accVar accParam : RangeMap) (name : String), name ∉ keys dec →
      assocGet (reconcile dec accVar accParam) name = assocGet accVar name := by
  induction dec with
  | nil => intro accVar accParam name _; rfl
  | cons p rest ih =>
      obtain ⟨n, b⟩ := p
      intro accVar accParam name h
      simp only [keys, List.map_cons, List.mem_cons] at h
      push_neg at h
      obtain ⟨hne, hrest⟩ := h
      cases b with
      | false =>
          simp only [reconcile, Bool.not_false, if_pos]
          exact ih _ _ _ hrest
      | true =>
          cases hv : assocGet accVar n with
          | some vs =>
              simp only [reconcile, hv]
              rw [if_neg (by simp), ih _ _ _ hrest,
                assocGet_set_ne _ _ _ _ hne]
          | none =>
              simp only [reconcile, hv]
              rw [if_neg (by simp), ih _ _ _ hrest,
                assocGet_set_ne _ _ _ _ hne]

theorem reconcile_get_true (dec : List (String × Bool)) :
    ∀ (accVar accParam : RangeMap) (name : String), (keys dec).Nodup →
      (name, true) ∈ dec →
      assocGet (reconcile dec accVar accParam) name =
        some ((assocGet accVar name).getD [] ++ (assocGet accParam name).getD []) := by
  induction dec with
  | nil => intro _ _ _ _ hmem; simp at hmem
  | cons p rest ih =>
      obtain ⟨n, b⟩ := p
      intro accVar accParam name hnd hmem
      simp only [keys, List.map_cons, List.nodup_cons] at hnd
      obtain ⟨hnotin, hndrest⟩ := hnd
      by_cases hn : n = name
      · subst hn
        have hb : b = true := by
          rcases List.mem_cons.mp hmem with h | h
          · exact (Prod.ext_iff.mp h).2.symm
          · exact absurd (List.mem_map.mpr ⟨(n, true), h, rfl⟩) hnotin
        subst hb
        have hrec : ∀ accVar' : RangeMap,
            assocGet (reconcile rest accVar' accParam) n = assocGet accVar' n :=
          fun accVar' => reconcile_get_notmem rest accVar' accParam n hnotin
        cases hv : assocGet accVar n with
        | some vs =>
            simp only [reconcile, hv]
            rw [if_neg (by simp), hrec, assocGet_set_self]
            simp [hv]
        | none =>
            simp only [reconcile, hv]
            rw [if_neg (by simp), hrec, assocGet_set_self]
            simp [hv]
      · have hmem' : (name, true) ∈ rest := by
          rcases List.mem_cons.mp hmem with h | h
          · exact absurd (congrArg Prod.fst h).symm hn
          · exact h
        cases b with
        | false =>
            simp only [reconcile, Bool.not_false, if_pos]
            rw [ih _ _ _ hndrest hmem',
              assocGet_delete_ne _ _ _ (Ne.symm hn)]
        | true =>
            cases hv : assocGet accVar n with
            | some vs =>
                simp only [reconcile, hv]
                rw [if_neg (by simp), ih _ _ _ hndrest hmem',
                  assocGet_set_ne _ _ _ _ (Ne.symm hn)]
            | none =>
                simp only [reconcile, hv]
                rw [if_neg (by simp), ih _ _ _ hndrest hmem',
                  assocGet_set_ne _ _ _ _ (Ne.symm hn)]

theorem reconcile_get_false (dec : List (String × Bool)) :
    ∀ (accVar accParam : RangeMap) (name : String), (keys dec).Nodup →
      (name, false) ∈ dec →
      assocGet (reconcile dec accVar accParam) name = assocGet accVar name := by
  induction dec with
  | nil => intro _ _ _ _ hmem; simp at hmem
  | cons p rest ih =>
      obtain ⟨n, b⟩ := p
      intro accVar accParam name hnd hmem
      simp only [keys, List.map_cons, List.nodup_cons] at hnd
      obtain ⟨hnotin, hndrest⟩ := hnd
      by_cases hn : n = name
      · subst hn
        have hb : b = false := by
          rcases List.mem_cons.mp hmem with h | h
          · exact (Prod.ext_iff.mp h).2.symm
          · exact absurd (List.mem_map.mpr ⟨(n, false), h, rfl⟩) hnotin
        subst hb
        simp only [reconcile, Bool.not_false, if_pos]
        exact reconcile_get_notmem rest _ _ n hnotin
      · have hmem' : (name, false) ∈ rest := by
          rcases List.mem_cons.mp hmem with h | h
          · exact absurd (congrArg Prod.fst h).symm hn
          · exact h
        cases b with
        | false =>
            simp only [reconcile, Bool.not_false, if_pos]
            exact ih _ _ _ hndrest hmem'
        | true =>
            cases hv : assocGet accVar n with
            | some vs =>
                simp only [reconcile, hv]
                rw [if_neg (by simp), ih _ _ _ hndrest hmem',
                  assocGet_set_ne _ _ _ _ (Ne.symm hn)]
            | none =>
                simp only [reconcile, hv]
                rw [if_neg (by simp), ih _ _ _ hndrest hmem',
                  assocGet_set_ne _ _ _ _ (Ne.symm hn)]

theorem forceDeclared_of_ne (languageId : String) (dec : List (String × Bool))
    (h : languageId ≠ "cpp") : forceDeclared languageId dec = dec := by
  simp [forceDeclared, h]

theorem forceDeclared_keys (languageId : String) (dec : List (String × Bool)) :
    keys (forceDeclared languageId dec) = keys dec := by
  unfold forceDeclared
  split
  · simp [keys]
  · rfl

theorem mem_forceDeclared_true (languageId : String) (dec : List (String × Bool))
    (name : String) (b : Bool) (hb : (name, b) ∈ dec)
    (h : languageId = "cpp" ∨ b = true) :
    (name, true) ∈ forceDeclared languageId dec := by
  unfold forceDeclared
  split
  · exact List.mem_map.mpr ⟨(name, b), hb, rfl⟩
  · rcases h with h | h
    · exact absurd h (by assumption)
    · exact h ▸ hb

theorem combineOpt_none_getD (l : List Range) : (combineOpt none l).getD [] = l := by
  cases l <;> simp [combineOpt]

theorem processToks_get_of_declared (hg hc : Bool) (lang : String)
    (toks : List Tok) (name : String)
    (hp : paramSeq hg toks name ≠ [])
    (hd : declaredOf hg toks name = true ∨ lang = "cpp") :
    assocGet (processToks hg hc lang toks) name =
      some (varSeq hg hc toks name ++ paramSeq hg toks name) := by
  simp only [processToks]
  have hne : (paramSeq hg toks name).isEmpty = false := by
    cases h : (paramSeq hg toks name).isEmpty
    · rfl
    · exact absurd (List.isEmpty_iff.mp h) hp
  have hdecget : assocGet (classify hg hc initialState toks).accWithDec name
      = some (declaredOf hg toks name) := by
    rw [classify_accWithDec, hne]
    simp [initialState, assocGet]
  have hmem := assocGet_mem _ _ _ hdecget
  have hmem' : (name, true) ∈ forceDeclared lang (classify hg hc initialState toks).accWithDec := by
    rcases hd with hd | hd
    · exact mem_forceDeclared_true lang _ name _ hmem (Or.inr hd)
    · exact mem_forceDeclared_true lang _ name _ hmem (Or.inl hd)
  have hnd : (keys (forceDeclared lang (classify hg hc initialState toks).accWithDec)).Nodup := by
    rw [forceDeclared_keys]
    exact classify_dec_keys_nodup hg hc toks initialState (by simp [initialState, keys])
  rw [reconcile_get_true _ _ _ _ hnd hmem']
  have hvar : assocGet (classify hg hc initialState toks).accVar name
      = combineOpt none (varSeq hg hc toks name) := by
    rw [classify_accVar]
    simp [initialState, assocGet]
  have hparam : assocGet (classify hg hc initialState toks).accParam name
      = combineOpt none (paramSeq hg toks name) := by
    rw [classify_accParam]
    simp [initialState, assocGet]
  rw [hvar, hparam, combineOpt_none_getD, combineOpt_none_getD]

theorem processToks_get_of_undeclared (hg hc : Bool) (lang : String)
    (toks : List Tok) (name : String)
    (hlang : lang ≠ "cpp")
    (hd : declaredOf hg toks name = false) :
    assocGet (processToks hg hc lang toks) name =
      combineOpt none (varSeq hg hc toks name) := by
  simp only [processToks]
  rw [forceDeclared_of_ne lang _ hlang]
  have hvar : assocGet (classify hg hc initialState toks).accVar name
      = combineOpt none (varSeq hg hc toks name) := by
    rw [classify_accVar]
    simp [initialState, assocGet]
  have hdecget : assocGet (classify hg hc initialState toks).accWithDec name
      = if (paramSeq hg toks name).isEmpty then none
        else some (declaredOf hg toks name) := by
    rw [classify_accWithDec]
    simp [initialState, assocGet]
  cases he : (paramSeq hg toks name).isEmpty with
  | true =>
      rw [he] at hdecget
      simp only [if_pos] at hdecget
      have hnotmem := not_mem_keys_of_assocGet_none _ _ hdecget
      rw [reconcile_get_notmem _ _ _ _ hnotmem, hvar]
  | false =>
      rw [he] at hdecget
      simp only [Bool.false_eq_true, if_neg, hd] at hdecget
      have hmem := assocGet_mem _ _ _ hdecget
      have hnd : (keys (classify hg hc initialState toks).accWithDec).Nodup :=
        classify_dec_keys_nodup hg hc toks initialState (by simp [initialState, keys])
      rw [reconcile_get_false _ _ _ _ hnd hmem, hvar]

theorem rangesByName_eq_processToks (data : List Nat) (kn mn : List String)
    (getText : Range → Option String) (hg hc : Bool) (lang : String)
    (m : RangeMap) (toks : List Tok)
    (hrun : rangesByName data kn mn getText hg hc lang = some m)
    (hdec : decodeTokens kn mn getText 0 0 data = some toks) :
    m = processToks hg hc lang toks := by
  unfold rangesByName at hrun
  rw [hdec] at hrun
  simp only [Option.map_some'] at hrun
  exact (Option.some.inj hrun).symm

/-- C1: for the encoded stream `[2,5,3,0,3, 0,5,4,1,0, 3,2,7,2,0]` with
kind names `["property","type","class"]` and modifier names
`["private","static"]`, the sequential decode produces exactly the
absolute single-line ranges (2,5)-(2,8), (2,10)-(2,14), (5,2)-(5,9):
the column advances by `deltaColumn` on the same line and is reset to 0
before adding `deltaColumn` when `deltaLine > 0`. -/
theorem claim_C1_delta_decode :
    decodeTokens ["property", "type", "class"] ["private", "static"]
        (fun _ => some "tok") 0 0 [2, 5, 3, 0, 3, 0, 5, 4, 1, 0, 3, 2, 7, 2, 0]
      = some [⟨⟨2, 5, 2, 8⟩, "tok", "property", ["private", "static"]⟩,
          ⟨⟨2, 10, 2, 14⟩, "tok", "type", []⟩,
          ⟨⟨5, 2, 5, 9⟩, "tok", "class", []⟩] := by
  rfl

/-- C2, counterexample: the claim asserts that with `highlightGlobals =
false` a variable-kind token whose 3-character name still carries the
"global" modifier is included in the returned mapping. On the code the
inclusion predicate is `highlightGlobals || (!global && length > 2)`, so a
global-tagged name is excluded regardless of length: the decode of the
single variable token below (name "abc", modifier bit 1 = "global")
returns the empty mapping. -/
theorem claim_C2_counterexample :
    rangesByName [0, 0, 3, 0, 2] ["variable", "parameter", "class"]
        ["declaration", "global", "label"] (fun _ => some "abc")
        false false "py" = some [] := by
  rfl

/-- C2, amended: when `highlightGlobals` is false, a variable-kind token
whose name carries the "global" modifier and has length 2 contributes
nothing to any accumulator (so such a name is entirely absent from the
returned mapping, shown end-to-end for the single-token stream for name
"ab"); a variable-kind token for a length-3 name WITHOUT the "global"
modifier is included in the returned mapping. -/
theorem claim_C2_short_global_suppression :
    (∀ (hc : Bool) (st : ClassifyState) (t : Tok),
        t.kind = "variable" → t.modifiers.contains "global" = true →
        t.name.length = 2 → classifyTok false hc st t = st)
  ∧ rangesByName [0, 0, 2, 0, 2] ["variable", "parameter", "class"]
        ["declaration", "global", "label"] (fun _ => some "ab")
        false false "py" = some []
  ∧ rangesByName [0, 0, 3, 0, 0] ["variable", "parameter", "class"]
        ["declaration", "global", "label"] (fun _ => some "abc")
        false false "py" = some [("abc", [⟨0, 0, 0, 3⟩])] := by
  refine ⟨?_, rfl, rfl⟩
  intro hc st t hkind hglob _
  have hmem : "global" ∈ t.modifiers := by simpa using hglob
  have hincl : inclPred false t = false := by
    simp [inclPred, hmem]
  simp [classifyTok, hincl, hkind]

/-- Witness for C2: the general suppression part applied to the concrete
length-2 global-tagged variable token "ab" from the empty state. -/
theorem claim_C2_witness :
    (Tok.kind ⟨⟨0, 0, 0, 2⟩, "ab", "variable", ["global"]⟩ = "variable")
  ∧ (Tok.modifiers ⟨⟨0, 0, 0, 2⟩, "ab", "variable", ["global"]⟩).contains "global" = true
  ∧ (Tok.name ⟨⟨0, 0, 0, 2⟩, "ab", "variable", ["global"]⟩).length = 2
  ∧ classifyTok false false initialState ⟨⟨0, 0, 0, 2⟩, "ab", "variable", ["global"]⟩
      = initialState :=
  ⟨rfl, by decide, by decide,
    claim_C2_short_global_suppression.1 false initialState
      ⟨⟨0, 0, 0, 2⟩, "ab", "variable", ["global"]⟩ rfl (by decide) (by decide)⟩

/-- C3: when the language is not "cpp", a name with parameter-classified
occurrences of which at least one carries the "declaration" modifier is
present in the returned mapping; a name with no declaration-tagged
occurrence and no variable-classified (or class-folded) occurrence is
absent from the returned mapping. -/
theorem claim_C3_parameter_promotion :
    (∀ (data : List Nat) (kn mn : List String) (getText : Range → Option String)
        (hg hc : Bool) (lang : String) (m : RangeMap) (toks : List Tok) (name : String),
        rangesByName data kn mn getText hg hc lang = some m →
        decodeTokens kn mn getText 0 0 data = some toks →
        lang ≠ "cpp" →
        paramSeq hg toks name ≠ [] →
        declaredOf hg toks name = true →
        (assocGet m name).isSome = true)
  ∧ (∀ (data : List Nat) (kn mn : List String) (getText : Range → Option String)
        (hg hc : Bool) (lang : String) (m : RangeMap) (toks : List Tok) (name : String),
        rangesByName data kn mn getText hg hc lang = some m →
        decodeTokens kn mn getText 0 0 data = some toks →
        lang ≠ "cpp" →
        varSeq hg hc toks name = [] →
        declaredOf hg toks name = false →
        assocGet m name = none) := by
  constructor
  · intro data kn mn getText hg hc lang m toks name hrun hdec _ hp hd
    rw [rangesByName_eq_processToks data kn mn getText hg hc lang m toks hrun hdec,
      processToks_get_of_declared hg hc lang toks name hp (Or.inl hd)]
    rfl
  · intro data kn mn getText hg hc lang m toks name hrun hdec hlang hv hd
    rw [rangesByName_eq_processToks data kn mn getText hg hc lang m toks hrun hdec,
      processToks_get_of_undeclared hg hc lang toks name hlang hd, hv]
    rfl

/-- Witness for C3: the stream of one parameter token for "foo" with the
"declaration" modifier yields a mapping containing "foo"; the same stream
without the modifier yields the empty mapping. -/
theorem claim_C3_witness :
    paramSeq false [⟨⟨0, 0, 0, 3⟩, "foo", "parameter", ["declaration"]⟩] "foo" ≠ []
  ∧ declaredOf false [⟨⟨0, 0, 0, 3⟩, "foo", "parameter", ["declaration"]⟩] "foo" = true
  ∧ (assocGet ([("foo", [⟨0, 0, 0, 3⟩])] : RangeMap) "foo").isSome = true
  ∧ assocGet ([] : RangeMap) "foo" = none :=
  ⟨by decide, by decide,
    claim_C3_parameter_promotion.1 [0, 0, 3, 1, 1]
      ["variable", "parameter", "class"] ["declaration", "global", "label"]
      (fun _ => some "foo") false false "py" [("foo", [⟨0, 0, 0, 3⟩])]
      [⟨⟨0, 0, 0, 3⟩, "foo", "parameter", ["declaration"]⟩] "foo"
      rfl rfl (by decide) (by decide) (by decide),
    claim_C3_parameter_promotion.2 [0, 0, 3, 1, 0]
      ["variable", "parameter", "class"] ["declaration", "global", "label"]
      (fun _ => some "foo") false false "py" []
      [⟨⟨0, 0, 0, 3⟩, "foo", "parameter", []⟩] "foo"
      rfl rfl (by decide) (by decide) (by decide)⟩

/-- C4: with `languageId = "cpp"` every entry of the declared-flag map is
forced to `true`, so any name with parameter-classified occurrences is
retained in the returned mapping (with its variable ranges followed by its
parameter ranges) even when no occurrence carries "declaration". -/
theorem claim_C4_cpp_override :
    (∀ (dec : List (String × Bool)) (n : String) (b : Bool),
        (n, b) ∈ dec → (n, true) ∈ forceDeclared "cpp" dec)
  ∧ (∀ (data : List Nat) (kn mn : List String) (getText : Range → Option String)
        (hg hc : Bool) (m : RangeMap) (toks : List Tok) (name : String),
        rangesByName data kn mn getText hg hc "cpp" = some m →
        decodeTokens kn mn getText 0 0 data = some toks →
        paramSeq hg toks name ≠ [] →
        assocGet m name = some (varSeq hg hc toks name ++ paramSeq hg toks name)) := by
  constructor
  · intro dec n b h
    exact mem_forceDeclared_true "cpp" dec n b h (Or.inl rfl)
  · intro data kn mn getText hg hc m toks name hrun hdec hp
    rw [rangesByName_eq_processToks data kn mn getText hg hc "cpp" m toks hrun hdec]
    exact processToks_get_of_declared hg hc "cpp" toks name hp (Or.inr rfl)

/-- Witness for C4: the undeclared parameter token for "foo" that is
dropped for "py" (see the C3 witness) is retained under "cpp". -/
theorem claim_C4_witness :
    paramSeq false [⟨⟨0, 0, 0, 3⟩, "foo", "parameter", []⟩] "foo" ≠ []
  ∧ ("foo", true) ∈ forceDeclared "cpp" [("foo", false)]
  ∧ assocGet ([("foo", [⟨0, 0, 0, 3⟩])] : RangeMap) "foo" = some [⟨0, 0, 0, 3⟩] :=
  ⟨by decide,
    claim_C4_cpp_override.1 [("foo", false)] "foo" false (by decide),
    claim_C4_cpp_override.2 [0, 0, 3, 1, 0]
      ["variable", "parameter", "class"] ["declaration", "global", "label"]
      (fun _ => some "foo") false false [("foo", [⟨0, 0, 0, 3⟩])]
      [⟨⟨0, 0, 0, 3⟩, "foo", "parameter", []⟩] "foo"
      rfl rfl (by decide)⟩

/-- C5: class-kind tokens bypass the inclusion predicate: whenever
`highlightClasses` is true, a class-kind token's range is appended to the
variable accumulator under its name regardless of the predicate; shown
end-to-end for a 2-character global-tagged class name with
`highlightGlobals = false`. -/
theorem claim_C5_class_folding :
    (∀ (hg : Bool) (st : ClassifyState) (t : Tok), t.kind = "class" →
        (classifyTok hg true st t).accVar = pushRange st.accVar t.name t.range)
  ∧ rangesByName [0, 0, 2, 2, 2] ["variable", "parameter", "class"]
        ["declaration", "global", "label"] (fun _ => some "ab")
        false true "py" = some [("ab", [⟨0, 0, 0, 2⟩])] := by
  refine ⟨?_, rfl⟩
  intro hg st t hkind
  rw [classifyTok_accVar, if_pos (by simp [varClassifies, hkind])]

/-- Witness for C5: the general class-folding part applied to the concrete
2-character global-tagged class token "ab" from the empty state. -/
theorem claim_C5_witness :
    (Tok.kind ⟨⟨0, 0, 0, 2⟩, "ab", "class", ["global"]⟩ = "class")
  ∧ (classifyTok false true initialState ⟨⟨0, 0, 0, 2⟩, "ab", "class", ["global"]⟩).accVar
      = pushRange initialState.accVar "ab" ⟨0, 0, 0, 2⟩ :=
  ⟨rfl,
    claim_C5_class_folding.1 false initialState
      ⟨⟨0, 0, 0, 2⟩, "ab", "class", ["global"]⟩ rfl⟩

/-- C6: for a name with both variable-classified and parameter-classified
occurrences where some parameter occurrence carries "declaration", the
returned mapping holds exactly the variable-classified ranges in stream
order followed by the parameter-classified ranges in stream order. -/
theorem claim_C6_merge_ordering :
    ∀ (data : List Nat) (kn mn : List String) (getText : Range → Option String)
      (hg hc : Bool) (lang : String) (m : RangeMap) (toks : List Tok) (name : String),
      rangesByName data kn mn getText hg hc lang = some m →
      decodeTokens kn mn getText 0 0 data = some toks →
      varSeq hg hc toks name ≠ [] →
      paramSeq hg toks name ≠ [] →
      declaredOf hg toks name = true →
      assocGet m name = some (varSeq hg hc toks name ++ paramSeq hg toks name) := by
  intro data kn mn getText hg hc lang m toks name hrun hdec _ hp hd
  rw [rangesByName_eq_processToks data kn mn getText hg hc lang m toks hrun hdec]
  exact processToks_get_of_declared hg hc lang toks name hp (Or.inl hd)

/-- Witness for C6: a stream with variable tokens for "foo" on lines 0 and
2 and a declared parameter token on line 1; the final sequence is the two
variable ranges in stream order followed by the parameter range. -/
theorem claim_C6_witness :
    varSeq false false
        [⟨⟨0, 0, 0, 3⟩, "foo", "variable", []⟩,
          ⟨⟨1, 0, 1, 3⟩, "foo", "parameter", ["declaration"]⟩,
          ⟨⟨2, 0, 2, 3⟩, "foo", "variable", []⟩] "foo"
      = [⟨0, 0, 0, 3⟩, ⟨2, 0, 2, 3⟩]
  ∧ assocGet ([("foo", [⟨0, 0, 0, 3⟩, ⟨2, 0, 2, 3⟩, ⟨1, 0, 1, 3⟩])] : RangeMap) "foo"
      = some ([⟨0, 0, 0, 3⟩, ⟨2, 0, 2, 3⟩] ++ [⟨1, 0, 1, 3⟩]) :=
  ⟨by decide,
    claim_C6_merge_ordering [0, 0, 3, 0, 0, 1, 0, 3, 1, 1, 1, 0, 3, 0, 0]
      ["variable", "parameter", "class"] ["declaration", "global", "label"]
      (fun _ => some "foo") false false "py"
      [("foo", [⟨0, 0, 0, 3⟩, ⟨2, 0, 2, 3⟩, ⟨1, 0, 1, 3⟩])]
      [⟨⟨0, 0, 0, 3⟩, "foo", "variable", []⟩,
        ⟨⟨1, 0, 1, 3⟩, "foo", "parameter", ["declaration"]⟩,
        ⟨⟨2, 0, 2, 3⟩, "foo", "variable", []⟩] "foo"
      rfl rfl (by decide) (by decide) (by decide)⟩

/-- C7: a parameter-kind token carrying the "label" modifier contributes
nothing to the parameter accumulator and nothing to the declared-flag map,
whether or not it also carries "declaration". -/
theorem claim_C7_label_exclusion :
    ∀ (hg hc : Bool) (st : ClassifyState) (t : Tok),
      t.kind = "parameter" → t.modifiers.contains "label" = true →
      (classifyTok hg hc st t).accParam = st.accParam ∧
      (classifyTok hg hc st t).accWithDec = st.accWithDec := by
  intro hg hc st t _ hlab
  have hmem : "label" ∈ t.modifiers := by simpa using hlab
  have hp : paramClassifies hg t = false := by
    simp [paramClassifies, hmem]
  exact ⟨by rw [classifyTok_accParam, if_neg (by simp [hp])],
    by rw [classifyTok_accWithDec, if_neg (by simp [hp])]⟩

/-- Witness for C7: a parameter token carrying both "declaration" and
"label" leaves the empty state unchanged in both accumulators. -/
theorem claim_C7_witness :
    (Tok.kind ⟨⟨0, 0, 0, 3⟩, "foo", "parameter", ["declaration", "label"]⟩ = "parameter")
  ∧ (classifyTok false false initialState
        ⟨⟨0, 0, 0, 3⟩, "foo", "parameter", ["declaration", "label"]⟩).accParam
      = initialState.accParam
  ∧ (classifyTok false false initialState
        ⟨⟨0, 0, 0, 3⟩, "foo", "parameter", ["declaration", "label"]⟩).accWithDec
      = initialState.accWithDec :=
  ⟨rfl,
    (claim_C7_label_exclusion false false initialState
      ⟨⟨0, 0, 0, 3⟩, "foo", "parameter", ["declaration", "label"]⟩ rfl (by decide)).1,
    (claim_C7_label_exclusion false false initialState
      ⟨⟨0, 0, 0, 3⟩, "foo", "parameter", ["declaration", "label"]⟩ rfl (by decide)).2⟩

/-- C8: a text-accessor failure on the range of the token being decoded
aborts the decode immediately with `none`, whatever the rest of the stream
holds, and a failed decode makes `rangesByName` return `none`: the result
is either the complete classification map or the propagated failure, never
a partial map. -/
theorem claim_C8_abort_on_failure :
    (∀ (kn mn : List String) (getText : Range → Option String)
        (line column dl dc len ki mi : Nat) (rest : List Nat),
        getText ⟨line + dl, (if dl = 0 then column else 0) + dc,
          line + dl, (if dl = 0 then column else 0) + dc + len⟩ = none →
        decodeTokens kn mn getText line column
          (dl :: dc :: len :: ki :: mi :: rest) = none)
  ∧ (∀ (data : List Nat) (kn mn : List String) (getText : Range → Option String)
        (hg hc : Bool) (lang : String),
        decodeTokens kn mn getText 0 0 data = none →
        rangesByName data kn mn getText hg hc lang = none) := by
  constructor
  · intro kn mn getText line column dl dc len ki mi rest h
    simp [decodeTokens, h]
  · intro data kn mn getText hg hc lang h
    simp [rangesByName, h]

/-- Witness for C8: an accessor that always fails aborts the decode of a
one-token stream, and the whole `rangesByName` call returns `none`. -/
theorem claim_C8_witness :
    decodeTokens ["variable"] [] (fun _ => none) 0 0 [0, 0, 3, 0, 0] = none
  ∧ rangesByName [0, 0, 3, 0, 0] ["variable"] [] (fun _ => none)
      false false "py" = none :=
  ⟨claim_C8_abort_on_failure.1 ["variable"] [] (fun _ => none) 0 0 0 0 3 0 0 [] rfl,
    claim_C8_abort_on_failure.2 [0, 0, 3, 0, 0] ["variable"] [] (fun _ => none)
      false false "py" rfl⟩

/-- C9: after classifying any token stream from the empty state (hence at
every point of the loop, each prefix being such a stream), every key of
the parameter accumulator is also a key of the declared-flag map. -/
theorem claim_C9_param_implies_dec :
    ∀ (hg hc : Bool) (toks : List Tok) (n : String),
      (assocGet (classify hg hc initialState toks).accParam n).isSome = true →
      (assocGet (classify hg hc initialState toks).accWithDec n).isSome = true := by
  intro hg hc toks n h
  cases he : (paramSeq hg toks n).isEmpty with
  | true =>
      rw [classify_accParam] at h
      simp [initialState, assocGet, combineOpt, he] at h
  | false =>
      rw [classify_accWithDec, he]
      simp

/-- Witness for C9: a single undeclared parameter token for "foo" puts
"foo" in the parameter accumulator and in the declared-flag map. -/
theorem claim_C9_witness :
    (assocGet (classify false false initialState
        [⟨⟨0, 0, 0, 3⟩, "foo", "parameter", []⟩]).accParam "foo").isSome = true
  ∧ (assocGet (classify false false initialState
        [⟨⟨0, 0, 0, 3⟩, "foo", "parameter", []⟩]).accWithDec "foo").isSome = true :=
  ⟨by decide,
    claim_C9_param_implies_dec false false
      [⟨⟨0, 0, 0, 3⟩, "foo", "parameter", []⟩] "foo" (by decide)⟩

/-- C10: discarding a name whose parameter occurrences were all undeclared
only removes the parameter entry: the name's variable-classified (and
class-folded) ranges survive unchanged in the returned mapping. -/
theorem claim_C10_frame_undeclared :
    ∀ (data : List Nat) (kn mn : List String) (getText : Range → Option String)
      (hg hc : Bool) (lang : String) (m : RangeMap) (toks : List Tok) (name : String),
      rangesByName data kn mn getText hg hc lang = some m →
      decodeTokens kn mn getText 0 0 data = some toks →
      lang ≠ "cpp" →
      declaredOf hg toks name = false →
      varSeq hg hc toks name ≠ [] →
      assocGet m name = some (varSeq hg hc toks name) := by
  intro data kn mn getText hg hc lang m toks name hrun hdec hlang hd hv
  rw [rangesByName_eq_processToks data kn mn getText hg hc lang m toks hrun hdec,
    processToks_get_of_undeclared hg hc lang toks name hlang hd]
  have he : (varSeq hg hc toks name).isEmpty = false := by
    cases h : (varSeq hg hc toks name).isEmpty
    · rfl
    · exact absurd (List.isEmpty_iff.mp h) hv
  simp [combineOpt, he]

/-- Witness for C10: a variable token and an undeclared parameter token
for "foo"; the variable range survives while the parameter range is
dropped. -/
theorem claim_C10_witness :
    declaredOf false
        [⟨⟨0, 0, 0, 3⟩, "foo", "variable", []⟩,
          ⟨⟨1, 0, 1, 3⟩, "foo", "parameter", []⟩] "foo" = false
  ∧ assocGet ([("foo", [⟨0, 0, 0, 3⟩])] : RangeMap) "foo"
      = some (varSeq false false
          [⟨⟨0, 0, 0, 3⟩, "foo", "variable", []⟩,
            ⟨⟨1, 0, 1, 3⟩, "foo", "parameter", []⟩] "foo") :=
  ⟨by decide,
    claim_C10_frame_undeclared [0, 0, 3, 0, 0, 1, 0, 3, 1, 0]
      ["variable", "parameter", "class"] ["declaration", "global", "label"]
      (fun _ => some "foo") false false "py" [("foo", [⟨0, 0, 0, 3⟩])]
      [⟨⟨0, 0, 0, 3⟩, "foo", "variable", []⟩,
        ⟨⟨1, 0, 1, 3⟩, "foo", "parameter", []⟩] "foo"
      rfl rfl (by decide) (by decide) (by decide)⟩

end SemanticHighlighting
